/-
Verification of the trajecta analytics engine (server/analytics.ts).

The engine is a set of pure statistical transforms over in-memory
collections of commit, repository and language-proficiency records.
This file gives a shallow embedding of those functions and proves the
specified properties about them.

Modelling conventions:
* timestamps are integers (milliseconds since the Unix epoch), as in
  JavaScript `Date.getTime()`;
* the UTC calendar day of a timestamp (`toISOString().split('T')[0]`)
  is modelled by floor division by 86 400 000;
* JavaScript numbers are modelled by `ℚ` (and by `ℝ` where `Math.sqrt`
  enters), `Math.round` / `toFixed(2)` by the round-half-up `round`;
* `Array.prototype.sort` (stable since ES2019) with the comparator
  `(a, b) => b.commitCount - a.commitCount` is modelled by
  `List.mergeSort` with the relation `b.commitCount ≤ a.commitCount`;
  because the JavaScript sort operates in place, the post-call state of
  the caller's array is modelled explicitly by a separate definition;
* functions that read the ambient clock (`new Date()`) receive that
  clock value as an explicit `now : ℤ` argument of the embedding.
-/
import Mathlib

namespace Trajecta

/-- Commit record, the fields of the `commits` table used by the engine
(`committedAt` plus the payload fields the engine ignores). -/
structure Commit where
  repositoryId : ℕ
  committedAt : ℤ
  additions : ℕ
  deletions : ℕ
  filesChanged : ℕ
deriving DecidableEq

/-- Repository record, the fields of the `repositories` table used by
the engine. -/
structure Repository where
  language : Option String
  size : ℤ
  stars : ℕ
  forks : ℕ
deriving DecidableEq

/-- Language-proficiency record: one row per (user, language) pair. -/
structure LanguageProficiency where
  language : String
  commitCount : ℕ
  repositoryCount : ℕ
  firstSeenAt : ℤ
  lastSeenAt : ℤ
deriving DecidableEq

/-- Milliseconds in one day (`1000 * 60 * 60 * 24`). -/
def msPerDay : ℤ := 86400000

/-- UTC calendar day of a timestamp: the date portion of
`toISOString()`, modelled as the floor of division by `msPerDay`. -/
def dayKey (c : Commit) : ℤ := c.committedAt.fdiv msPerDay

/-- Day of week of a timestamp (`getDay()` under the UTC convention):
0 = Sunday .. 6 = Saturday; the Unix epoch fell on a Thursday (4). -/
def weekDay (c : Commit) : ℤ := (dayKey c + 4).emod 7

/-- Distinct elements of a list in order of first appearance: the key
order of a JavaScript object built by insertion with string keys. -/
def firstDedup [DecidableEq α] : List α → List α
  | [] => []
  | a :: l => a :: firstDedup (l.filter (fun b => decide (b ≠ a)))
termination_by l => l.length
decreasing_by
  simp only [List.length_cons]
  exact Nat.lt_succ_of_le (List.length_filter_le _ _)

/-- Values of the object built by counting occurrences of each key
while iterating the key list in order (insertion-ordered record). -/
def bucketCounts [DecidableEq α] (keys : List α) : List ℕ :=
  (firstDedup keys).map (fun k => keys.count k)

/-- Per-UTC-day commit counts, one bucket per day with at least one
commit, in order of first appearance (`Object.values(commitsByDay)`). -/
def dailyCounts (commits : List Commit) : List ℕ :=
  bucketCounts (commits.map dayKey)

/-- Number of commits of a list that fall on a given UTC calendar day. -/
def countOn (commits : List Commit) (d : ℤ) : ℕ :=
  (commits.map dayKey).count d

/-- Arithmetic mean of a list of counts (`reduce((a,b) => a+b, 0) / length`). -/
def mean (counts : List ℕ) : ℚ :=
  ((counts.map (fun n : ℕ => (n : ℚ))).sum) / (counts.length : ℚ)

/-- Population variance of a list of counts
(`reduce((sum, c) => sum + (c - mean)^2, 0) / length`). -/
def variance (counts : List ℕ) : ℚ :=
  ((counts.map (fun n : ℕ => ((n : ℚ) - mean counts) ^ 2)).sum) / (counts.length : ℚ)

/-- Consistency score: coefficient of variation of per-day commit
counts mapped onto a 0-100 scale, `Math.round` at the end. -/
noncomputable def calculateConsistencyScore (commits : List Commit) : ℤ :=
  if commits.length = 0 then 0
  else
    let dailyCounts := dailyCounts commits
    if dailyCounts.length = 0 then 0
    else
      let m : ℚ := mean dailyCounts
      let stdDev : ℝ := Real.sqrt ((variance dailyCounts : ℚ) : ℝ)
      let cv : ℝ := if m = 0 then 0 else stdDev / (m : ℝ)
      round (max 0 (min 100 (100 - cv * 50)) : ℝ)

/-- Rounding to two decimal places: `parseFloat(x.toFixed(2))`. -/
def roundTo2 (x : ℚ) : ℚ := ((round (x * 100) : ℤ) : ℚ) / 100

/-- Earliest commit timestamp of a list (`Math.min(...dates)`); default
0 for the empty list, on which the engine never relies. -/
def minTime (commits : List Commit) : ℤ :=
  ((commits.map (fun c => c.committedAt)).min?).getD 0

/-- Latest commit timestamp of a list (`Math.max(...dates)`). -/
def maxTime (commits : List Commit) : ℤ :=
  ((commits.map (fun c => c.committedAt)).max?).getD 0

/-- Learning velocity: commits per day across the observed span. -/
def calculateLearningVelocity (commits : List Commit) : ℚ :=
  if commits.length = 0 then 0
  else
    let daysDiff : ℚ := ((maxTime commits - minTime commits : ℤ) : ℚ) / (msPerDay : ℚ)
    if daysDiff = 0 then (commits.length : ℚ)
    else roundTo2 ((commits.length : ℚ) / daysDiff)

/-- Project depth: weighted blend of average repository size and
commit density, `Math.round` at the end. -/
def calculateProjectDepth (repositories : List Repository) (commits : List Commit) : ℤ :=
  if repositories.length = 0 then 0
  else
    let avgSize : ℚ := ((repositories.map (fun r => (r.size : ℚ))).sum) / (repositories.length : ℚ)
    let sizeScore : ℚ := min 100 (avgSize / 1000 * 100)
    let commitDensity : ℚ := (commits.length : ℚ) / (repositories.length : ℚ)
    let densityScore : ℚ := min 100 (commitDensity * 5)
    round (sizeScore * 0.4 + densityScore * 0.6)

/-- Depth vs breadth: commits per repository divided by language
count, to two decimal places; 0 when either collection is empty. -/
def calculateDepthBreadthRatio (repositories : List Repository) (commits : List Commit)
    (languages : List LanguageProficiency) : ℚ :=
  if repositories.length = 0 ∨ languages.length = 0 then 0
  else
    let depth : ℚ := (commits.length : ℚ) / (repositories.length : ℚ)
    let breadth : ℚ := (languages.length : ℚ)
    roundTo2 (depth / breadth)

/-- Skill growth trend: share of commits inside the trailing window.
The source reads the ambient clock (`new Date()`) and then steps back
`timeWindowDays` calendar days; the clock value read is the explicit
`now` argument of the embedding. -/
def calculateSkillGrowthTrend (now : ℤ) (currentLanguages : List LanguageProficiency)
    (commits : List Commit) (timeWindowDays : ℤ) : ℤ :=
  if currentLanguages.length = 0 then 0
  else
    let cutoffDate := now - timeWindowDays * msPerDay
    let recentCommits := commits.filter (fun c => decide (cutoffDate ≤ c.committedAt))
    if recentCommits.length = 0 then 0
    else
      let growthPercentage : ℚ := ((recentCommits.length : ℚ) / (commits.length : ℚ)) * 100
      min 100 (round growthPercentage)

/-- Weekday indices 0..6 in ascending order: JavaScript iterates the
integer-like keys of `commitsByDayOfWeek` in ascending numeric order. -/
def weekDayIndices : List ℤ := [0, 1, 2, 3, 4, 5, 6]

/-- Number of commits falling on a given day of week. -/
def countDow (commits : List Commit) (d : ℤ) : ℕ :=
  (commits.map weekDay).count d

/-- Weekday buckets actually present (at least one commit), ascending. -/
def presentDows (commits : List Commit) : List ℤ :=
  weekDayIndices.filter (fun d => decide (0 < countDow commits d))

/-- Per-present-weekday commit counts
(`Object.values(commitsByDayOfWeek)`, ascending key order). -/
def dowCounts (commits : List Commit) : List ℕ :=
  (presentDows commits).map (fun d => countDow commits d)

/-- Peak weekday index: fold with `count > maxCommits` starting from
`peakDay = 0`, `maxCommits = 0`. -/
def peakDayIdx (commits : List Commit) : ℤ :=
  (((presentDows commits).map (fun d => (d, countDow commits d))).foldl
    (fun acc e => if acc.2 < e.2 then e else acc) ((0 : ℤ), (0 : ℕ))).1

/-- English weekday names indexed 0 = Sunday .. 6 = Saturday. -/
def dayNames : List String :=
  ["Sunday", "Monday", "Tuesday", "Wednesday", "Thursday", "Friday", "Saturday"]

/-- Result record of `analyzeCommitPatterns`. -/
structure CommitPatterns where
  averageCommitsPerDay : ℚ
  peakDay : String
  burstyPattern : Bool
  consistentPattern : Bool
deriving DecidableEq

open Classical in
/-- Commit-pattern analysis: weekly rhythm classification. -/
noncomputable def analyzeCommitPatterns (commits : List Commit) : CommitPatterns :=
  if commits.length = 0 then
    { averageCommitsPerDay := 0
      peakDay := "Monday"
      burstyPattern := false
      consistentPattern := false }
  else
    let values := dowCounts commits
    let m : ℚ := mean values
    let stdDev : ℝ := Real.sqrt ((variance values : ℚ) : ℝ)
    { averageCommitsPerDay := roundTo2 ((commits.length : ℚ) / 7)
      peakDay := dayNames.getD (peakDayIdx commits).toNat ""
      burstyPattern := decide (stdDev > (m : ℝ) * 0.5)
      consistentPattern := decide (stdDev < (m : ℝ) * 0.3) }

/-- Newly adopted languages: the source reads the ambient clock
(`new Date()`) and steps back `timeWindowDays` calendar days; the
clock value read is the explicit `now` argument of the embedding.
Only the lower bound `firstSeenAt >= cutoffDate` is tested. -/
def identifyNewLanguages (now : ℤ) (languages : List LanguageProficiency)
    (timeWindowDays : ℤ) : List String :=
  let cutoffDate := now - timeWindowDays * msPerDay
  (languages.filter (fun lang => decide (cutoffDate ≤ lang.firstSeenAt))).map
    (fun lang => lang.language)

/-- Stated from the claim, for comparison with the source behaviour:
keep exactly the entries whose `firstSeenAt` lies in the closed
interval `[now - windowDays, now]`, both bounds enforced. -/
def identifyNewLanguagesSpec (now : ℤ) (languages : List LanguageProficiency)
    (timeWindowDays : ℤ) : List String :=
  (languages.filter (fun lang =>
    decide (now - timeWindowDays * msPerDay ≤ lang.firstSeenAt ∧ lang.firstSeenAt ≤ now))).map
    (fun lang => lang.language)

/-- Sort relation of the comparator `(a, b) => b.commitCount - a.commitCount`:
`a` may come before `b` exactly when the comparator is `≤ 0`. -/
def sortLe (a b : LanguageProficiency) : Bool := decide (b.commitCount ≤ a.commitCount)

/-- State of the caller's `languages` array after `identifyGrowthLanguages`
returns: `Array.prototype.sort` sorts the array in place (stable), so
the caller observes the sorted order. -/
def identifyGrowthLanguagesPost (languages : List LanguageProficiency) :
    List LanguageProficiency :=
  languages.mergeSort sortLe

/-- Growth tier of a commit count. -/
def growthTier (n : ℕ) : String :=
  if 100 < n then "High" else if 50 < n then "Medium" else "Low"

/-- Annotated entry returned by `identifyGrowthLanguages`. -/
structure GrowthLanguage where
  language : String
  commitCount : ℕ
  growth : String
deriving DecidableEq

/-- Top-N languages by commit count: in-place stable sort descending,
`slice(0, topN)`, then annotate with the growth tier. -/
def identifyGrowthLanguages (languages : List LanguageProficiency) (topN : ℕ) :
    List GrowthLanguage :=
  ((identifyGrowthLanguagesPost languages).take topN).map
    (fun lang =>
      { language := lang.language
        commitCount := lang.commitCount
        growth := growthTier lang.commitCount })

/-! ### Helper lemmas -/

theorem mem_firstDedup [DecidableEq α] {l : List α} {x : α} :
    x ∈ firstDedup l ↔ x ∈ l := by
  induction l using firstDedup.induct with
  | case1 => simp [firstDedup]
  | case2 a l ih =>
    simp only [firstDedup, List.mem_cons, ih, List.mem_filter,
      decide_eq_true_eq]
    by_cases hx : x = a <;> simp [hx]

theorem nodup_firstDedup [DecidableEq α] (l : List α) : (firstDedup l).Nodup := by
  induction l using firstDedup.induct with
  | case1 => simp [firstDedup]
  | case2 a l ih =>
    simp only [firstDedup, List.nodup_cons]
    refine ⟨fun hmem => ?_, ih⟩
    rw [mem_firstDedup, List.mem_filter] at hmem
    simpa using hmem.2

theorem firstDedup_ne_nil [DecidableEq α] {l : List α} (h : l ≠ []) :
    firstDedup l ≠ [] := by
  cases l with
  | nil => exact absurd rfl h
  | cons a l => simp [firstDedup]

theorem firstDedup_of_forall_eq [DecidableEq α] {l : List α} {a : α}
    (hne : l ≠ []) (h : ∀ x ∈ l, x = a) : firstDedup l = [a] := by
  cases l with
  | nil => exact absurd rfl hne
  | cons b l =>
    have hb : b = a := h b (List.mem_cons_self b l)
    subst hb
    have hfilter : List.filter (fun x => decide (x ≠ b)) l = [] :=
      List.filter_eq_nil_iff.mpr fun x hx => by
        simp [h x (List.mem_cons_of_mem b hx)]
    rw [firstDedup, hfilter, firstDedup]

theorem int_le_round {α : Type*} [LinearOrderedField α] [FloorRing α]
    {x : α} {a : ℤ} (h : (a : α) ≤ x) : a ≤ round x := by
  rw [round_eq, Int.le_floor]
  linarith

theorem round_le_int {α : Type*} [LinearOrderedField α] [FloorRing α]
    {x : α} {b : ℤ} (h : x ≤ (b : α)) : round x ≤ b := by
  rw [round_eq]
  have hlt : ⌊x + 1 / 2⌋ < b + 1 := by
    rw [Int.floor_lt]
    push_cast
    linarith
  omega

theorem roundTo2_nonneg {x : ℚ} (h : 0 ≤ x) : 0 ≤ roundTo2 x := by
  unfold roundTo2
  have h0 : (0 : ℤ) ≤ round (x * 100) :=
    int_le_round (by push_cast; nlinarith)
  positivity

theorem sum_map_cast_nonneg (counts : List ℕ) :
    0 ≤ (counts.map (fun n : ℕ => (n : ℚ))).sum :=
  List.sum_nonneg fun x hx => by
    obtain ⟨n, -, rfl⟩ := List.mem_map.mp hx
    positivity

theorem mean_nonneg (counts : List ℕ) : 0 ≤ mean counts := by
  unfold mean
  have hsum := sum_map_cast_nonneg counts
  positivity

theorem mean_pos {counts : List ℕ} (hne : counts ≠ [])
    (h1 : ∀ x ∈ counts, 1 ≤ x) : 0 < mean counts := by
  unfold mean
  cases counts with
  | nil => exact absurd rfl hne
  | cons c l =>
    have hc : (1 : ℚ) ≤ (c : ℚ) := by
      exact_mod_cast h1 c (List.mem_cons_self c l)
    have hsum := sum_map_cast_nonneg l
    rw [List.map_cons, List.sum_cons, List.length_cons]
    apply div_pos (by linarith)
    have : (0 : ℚ) < ((l.length + 1 : ℕ) : ℚ) := by exact_mod_cast Nat.succ_pos l.length
    exact_mod_cast this

/-! ### C1: the caller's collection is mutated by the in-place sort -/

/-- Example language-proficiency entries from the spec scenario. -/
def tsEntry : LanguageProficiency :=
  { language := "TypeScript", commitCount := 150, repositoryCount := 1
    firstSeenAt := 0, lastSeenAt := 0 }

/-- Python entry of the spec scenario. -/
def pyEntry : LanguageProficiency :=
  { language := "Python", commitCount := 75, repositoryCount := 1
    firstSeenAt := 0, lastSeenAt := 0 }

/-- JavaScript entry of the spec scenario. -/
def jsEntry : LanguageProficiency :=
  { language := "JavaScript", commitCount := 30, repositoryCount := 1
    firstSeenAt := 0, lastSeenAt := 0 }

/-- C1: the claim that `identifyGrowthLanguages` leaves the caller's
collection unchanged fails on the code: `Array.prototype.sort` operates
in place, so after the call on `[jsEntry, tsEntry]` the caller's array
holds `[tsEntry, jsEntry]` — not the original order. -/
theorem identifyGrowthLanguages_mutates_caller :
    identifyGrowthLanguagesPost [jsEntry, tsEntry] = [tsEntry, jsEntry] ∧
    identifyGrowthLanguagesPost [jsEntry, tsEntry] ≠ [jsEntry, tsEntry] := by
  have heval : identifyGrowthLanguagesPost [jsEntry, tsEntry] = [tsEntry, jsEntry] := by
    unfold identifyGrowthLanguagesPost
    rw [List.mergeSort]
    simp [List.splitInTwo_fst, List.splitInTwo_snd, List.merge, sortLe, jsEntry, tsEntry]
  refine ⟨heval, ?_⟩
  rw [heval]
  decide

/-! ### C2: the window's upper bound is not enforced -/

/-- Entry first seen one day after the reference time `now = 0`. -/
def futureEntry : LanguageProficiency :=
  { language := "Rust", commitCount := 5, repositoryCount := 1
    firstSeenAt := 86400000, lastSeenAt := 86400000 }

/-- C2 (counterexample): with `now = 0` and a 90-day window, an entry
first seen one day in the future is returned by the code although it
lies outside the closed interval `[now - windowDays, now]`: the code
and the claimed both-bounds filter disagree. -/
theorem identifyNewLanguages_not_both_bounds :
    identifyNewLanguages 0 [futureEntry] 90
      ≠ identifyNewLanguagesSpec 0 [futureEntry] 90 := by
  decide

/-- C2 (amended): `identifyNewLanguages` returns exactly the language
names of the entries with `firstSeenAt ≥ now - windowDays` — only the
lower bound is enforced — in the same relative order as the input. -/
theorem identifyNewLanguages_lower_bound_only (now : ℤ)
    (languages : List LanguageProficiency) (timeWindowDays : ℤ) :
    identifyNewLanguages now languages timeWindowDays
      = (languages.filter (fun lang =>
          decide (now - timeWindowDays * msPerDay ≤ lang.firstSeenAt))).map
          (fun lang => lang.language)
    ∧ (identifyNewLanguages now languages timeWindowDays).Sublist
        (languages.map (fun lang => lang.language))
    ∧ ∀ name, name ∈ identifyNewLanguages now languages timeWindowDays ↔
        ∃ lang ∈ languages, lang.language = name ∧
          now - timeWindowDays * msPerDay ≤ lang.firstSeenAt := by
  refine ⟨rfl, (List.filter_sublist _).map _, fun name => ?_⟩
  simp only [identifyNewLanguages, List.mem_map, List.mem_filter,
    decide_eq_true_eq]
  constructor
  · rintro ⟨lang, ⟨hmem, hle⟩, heq⟩
    exact ⟨lang, hmem, heq, hle⟩
  · rintro ⟨lang, hmem, heq, hle⟩
    exact ⟨lang, ⟨hmem, hle⟩, heq⟩

/-! ### C3: the reference time is read from the ambient clock -/

/-- Entry first seen 30 days before the epoch. -/
def oldEntry : LanguageProficiency :=
  { language := "X", commitCount := 5, repositoryCount := 1
    firstSeenAt := -30 * 86400000, lastSeenAt := 0 }

/-- Commit at the Unix epoch. -/
def epochCommit : Commit :=
  { repositoryId := 1, committedAt := 0, additions := 0, deletions := 0
    filesChanged := 1 }

/-- C3: the claim that `calculateSkillGrowthTrend` and
`identifyNewLanguages` take `now` as an explicit parameter fails on the
code: both read the ambient system clock (`new Date()`), and the result
of a call with identical argument collections changes as that clock
advances — here from clock value `0` to clock value `200` days. -/
theorem engine_reads_ambient_clock :
    identifyNewLanguages 0 [oldEntry] 90
      ≠ identifyNewLanguages (200 * 86400000) [oldEntry] 90 ∧
    calculateSkillGrowthTrend 0 [oldEntry] [epochCommit] 90
      ≠ calculateSkillGrowthTrend (200 * 86400000) [oldEntry] [epochCommit] 90 := by
  refine ⟨by decide, ?_⟩
  have h1 : calculateSkillGrowthTrend 0 [oldEntry] [epochCommit] 90 = 100 := by
    unfold calculateSkillGrowthTrend
    norm_num [epochCommit, oldEntry, msPerDay, round_eq]
  have h2 : calculateSkillGrowthTrend (200 * 86400000) [oldEntry] [epochCommit] 90 = 0 := by
    unfold calculateSkillGrowthTrend
    norm_num [epochCommit, oldEntry, msPerDay]
  rw [h1, h2]
  decide

/-! ### C6: learning velocity -/

/-- Commit ten days after the Unix epoch. -/
def tenDayCommit : Commit :=
  { repositoryId := 1, committedAt := 10 * 86400000, additions := 0
    deletions := 0, filesChanged := 1 }

/-- C6: `calculateLearningVelocity` returns 0 on the empty list; the
raw commit count when the earliest and latest commit timestamps
coincide; otherwise the commit count divided by the fractional day
span, rounded to two decimal places; and two commits exactly ten days
apart yield 0.2. -/
theorem calculateLearningVelocity_spec :
    calculateLearningVelocity [] = 0
    ∧ (∀ commits : List Commit, commits ≠ [] →
        minTime commits = maxTime commits →
        calculateLearningVelocity commits = (commits.length : ℚ))
    ∧ (∀ commits : List Commit, commits ≠ [] →
        minTime commits ≠ maxTime commits →
        calculateLearningVelocity commits
          = roundTo2 ((commits.length : ℚ)
              / (((maxTime commits - minTime commits : ℤ) : ℚ) / (msPerDay : ℚ))))
    ∧ (∀ c1 c2 : Commit, c2.committedAt = c1.committedAt + 10 * msPerDay →
        calculateLearningVelocity [c1, c2] = 1/5) := by
  refine ⟨rfl, ?_, ?_, ?_⟩
  · intro cs h hmm
    have hlen : cs.length ≠ 0 := fun h0 => h (List.length_eq_zero.mp h0)
    simp [calculateLearningVelocity, hlen, hmm]
  · intro cs h hne
    have hlen : cs.length ≠ 0 := fun h0 => h (List.length_eq_zero.mp h0)
    have hdd : ((maxTime cs - minTime cs : ℤ) : ℚ) / (msPerDay : ℚ) ≠ 0 := by
      rw [div_ne_zero_iff]
      refine ⟨?_, by norm_num [msPerDay]⟩
      exact_mod_cast sub_ne_zero.mpr fun hx => hne hx.symm
    simp only [calculateLearningVelocity, if_neg hlen, if_neg hdd]
  · intro c1 c2 h12
    have hmin : minTime [c1, c2] = min c1.committedAt c2.committedAt := rfl
    have hmax : maxTime [c1, c2] = max c1.committedAt c2.committedAt := rfl
    have hday : (0 : ℤ) ≤ 10 * msPerDay := by norm_num [msPerDay]
    have hminv : minTime [c1, c2] = c1.committedAt := by
      rw [hmin, h12]; exact min_eq_left (by linarith)
    have hmaxv : maxTime [c1, c2] = c1.committedAt + 10 * msPerDay := by
      rw [hmax, h12]; exact max_eq_right (by linarith)
    simp only [calculateLearningVelocity, hminv, hmaxv, List.length_cons,
      List.length_nil]
    norm_num [msPerDay, roundTo2, round_eq]

/-- Witness for C6: a single epoch commit has coinciding extremes and
velocity 1; the epoch commit followed by a commit ten days later has
velocity 0.2. -/
theorem calculateLearningVelocity_spec_witness :
    calculateLearningVelocity [epochCommit] = 1 ∧
    calculateLearningVelocity [epochCommit, tenDayCommit] = 1/5 := by
  constructor
  · have h := calculateLearningVelocity_spec.2.1 [epochCommit] (by decide) (by decide)
    simpa using h
  · exact calculateLearningVelocity_spec.2.2.2 epochCommit tenDayCommit (by decide)

/-! ### C8: depth/breadth ratio -/

/-- C8: `calculateDepthBreadthRatio` returns 0 whenever the repository
or language collection is empty regardless of the commits, otherwise
`(commitCount / repositoryCount) / languageCount` to two decimal
places, and the result is never negative. -/
theorem calculateDepthBreadthRatio_spec (repositories : List Repository)
    (commits : List Commit) (languages : List LanguageProficiency) :
    ((repositories = [] ∨ languages = []) →
        calculateDepthBreadthRatio repositories commits languages = 0)
    ∧ (repositories ≠ [] → languages ≠ [] →
        calculateDepthBreadthRatio repositories commits languages
          = roundTo2 (((commits.length : ℚ) / (repositories.length : ℚ))
              / (languages.length : ℚ)))
    ∧ 0 ≤ calculateDepthBreadthRatio repositories commits languages := by
  refine ⟨?_, ?_, ?_⟩
  · rintro (h | h) <;> simp [calculateDepthBreadthRatio, h]
  · intro hr hl
    have hcond : ¬(repositories.length = 0 ∨ languages.length = 0) := by
      push_neg
      exact ⟨fun h0 => hr (List.length_eq_zero.mp h0),
             fun h0 => hl (List.length_eq_zero.mp h0)⟩
    simp only [calculateDepthBreadthRatio, if_neg hcond]
  · unfold calculateDepthBreadthRatio
    split
    · exact le_refl 0
    · apply roundTo2_nonneg
      positivity

/-- Witness for C8: one repository, one commit, one language gives the
rounded ratio 1/1/1. -/
theorem calculateDepthBreadthRatio_spec_witness :
    calculateDepthBreadthRatio [{ language := none, size := 500, stars := 0, forks := 0 }]
        [epochCommit] [tsEntry]
      = roundTo2 (((1 : ℚ) / 1) / 1) := by
  have h := (calculateDepthBreadthRatio_spec
    [{ language := none, size := 500, stars := 0, forks := 0 }] [epochCommit] [tsEntry]).2.1
    (by decide) (by decide)
  simpa using h

/-! ### C9: project depth -/

/-- Repository of size 500 KB used as a concrete witness input. -/
def repo500 : Repository := { language := none, size := 500, stars := 0, forks := 0 }

/-- C9: `calculateProjectDepth` returns 0 on an empty repository list;
on a non-empty list with non-negative sizes it returns the rounded
weighted blend `sizeScore * 0.4 + densityScore * 0.6` of the two
saturating scores, and the result lies in `[0, 100]`. -/
theorem calculateProjectDepth_spec (repositories : List Repository)
    (commits : List Commit) :
    calculateProjectDepth [] commits = 0
    ∧ (repositories ≠ [] → (∀ r ∈ repositories, 0 ≤ r.size) →
        calculateProjectDepth repositories commits
            = round
                (min 100 ((((repositories.map (fun r => (r.size : ℚ))).sum
                      / (repositories.length : ℚ)) / 1000 * 100)) * 0.4
                  + min 100 (((commits.length : ℚ) / (repositories.length : ℚ)) * 5) * 0.6)
          ∧ 0 ≤ calculateProjectDepth repositories commits
          ∧ calculateProjectDepth repositories commits ≤ 100) := by
  refine ⟨rfl, ?_⟩
  intro hr hsz
  have hlen : repositories.length ≠ 0 := fun h0 => hr (List.length_eq_zero.mp h0)
  have hlpos : (0 : ℚ) < (repositories.length : ℚ) := by
    exact_mod_cast Nat.pos_of_ne_zero hlen
  have hsum : 0 ≤ (repositories.map (fun r => (r.size : ℚ))).sum :=
    List.sum_nonneg fun x hx => by
      obtain ⟨r, hr', rfl⟩ := List.mem_map.mp hx
      exact_mod_cast hsz r hr'
  set A : ℚ := ((repositories.map (fun r => (r.size : ℚ))).sum
      / (repositories.length : ℚ)) with hA
  set D : ℚ := (commits.length : ℚ) / (repositories.length : ℚ) with hD
  have havg : 0 ≤ A := div_nonneg hsum (le_of_lt hlpos)
  have hdens : 0 ≤ D := div_nonneg (by positivity) (le_of_lt hlpos)
  have hs0 : (0 : ℚ) ≤ min 100 (A / 1000 * 100) := le_min (by norm_num) (by positivity)
  have hs1 : min 100 (A / 1000 * 100) ≤ 100 := min_le_left _ _
  have hd0 : (0 : ℚ) ≤ min 100 (D * 5) := le_min (by norm_num) (by positivity)
  have hd1 : min 100 (D * 5) ≤ 100 := min_le_left _ _
  have hval : calculateProjectDepth repositories commits
      = round (min 100 (A / 1000 * 100) * 0.4 + min 100 (D * 5) * 0.6) := by
    simp only [calculateProjectDepth, if_neg hlen, hA, hD]
  refine ⟨hval, ?_, ?_⟩
  · rw [hval]
    apply int_le_round
    push_cast
    nlinarith
  · rw [hval]
    apply round_le_int
    push_cast
    nlinarith

/-- Witness for C9: one 500 KB repository and no commits give a depth
score inside `[0, 100]`. -/
theorem calculateProjectDepth_spec_witness :
    0 ≤ calculateProjectDepth [repo500] [] ∧
    calculateProjectDepth [repo500] [] ≤ 100 := by
  have h := (calculateProjectDepth_spec [repo500] []).2 (by decide) (by decide)
  exact ⟨h.2.1, h.2.2⟩

/-! ### C7: growth-language ranking -/

theorem sortLe_trans : ∀ a b c : LanguageProficiency,
    sortLe a b → sortLe b c → sortLe a c := by
  intro a b c hab hbc
  simp only [sortLe, decide_eq_true_eq] at hab hbc ⊢
  omega

theorem sortLe_total : ∀ a b : LanguageProficiency, sortLe a b || sortLe b a := by
  intro a b
  simp only [sortLe, Bool.or_eq_true, decide_eq_true_eq]
  omega

/-- C7: with `topN` at least the collection size,
`identifyGrowthLanguages` returns an annotated copy of the whole
collection (first conjunct: same languages and counts up to
permutation), sorted descending by commit count (second conjunct),
with equal-count entries kept in their original input order (third
conjunct: the sub-list of any fixed commit count is exactly the input
sub-list of that count), each annotated with its growth tier (fourth
conjunct); the spec scenario evaluates as stated (fifth conjunct). -/
theorem identifyGrowthLanguages_spec (languages : List LanguageProficiency) (topN : ℕ)
    (hn : languages.length ≤ topN) :
    ((identifyGrowthLanguages languages topN).map
        (fun g => (g.language, g.commitCount))).Perm
        (languages.map (fun l => (l.language, l.commitCount)))
    ∧ (identifyGrowthLanguages languages topN).Pairwise
        (fun a b => b.commitCount ≤ a.commitCount)
    ∧ (∀ k : ℕ, (identifyGrowthLanguages languages topN).filter
          (fun g => decide (g.commitCount = k))
        = (languages.filter (fun l => decide (l.commitCount = k))).map
            (fun l => { language := l.language, commitCount := l.commitCount,
                        growth := growthTier l.commitCount }))
    ∧ (∀ g ∈ identifyGrowthLanguages languages topN,
        g.growth = growthTier g.commitCount)
    ∧ identifyGrowthLanguages [tsEntry, pyEntry, jsEntry] 2
        = [{ language := "TypeScript", commitCount := 150, growth := "High" },
           { language := "Python", commitCount := 75, growth := "Medium" }] := by
  have htake : (List.mergeSort languages sortLe).take topN
      = List.mergeSort languages sortLe :=
    List.take_of_length_le (by simpa using hn)
  have hrw : identifyGrowthLanguages languages topN
      = (List.mergeSort languages sortLe).map
          (fun l => { language := l.language, commitCount := l.commitCount,
                      growth := growthTier l.commitCount }) := by
    simp only [identifyGrowthLanguages, identifyGrowthLanguagesPost, htake]
  refine ⟨?_, ?_, ?_, ?_, ?_⟩
  · rw [hrw, List.map_map]
    exact (List.mergeSort_perm languages sortLe).map _
  · rw [hrw]
    exact (List.sorted_mergeSort sortLe_trans sortLe_total languages).map _
      (fun a b hab => by simpa [sortLe] using hab)
  · intro k
    set p : LanguageProficiency → Bool := fun l => decide (l.commitCount = k) with hp
    have hpair : (languages.filter p).Pairwise (fun a b => sortLe a b = true) := by
      apply List.pairwise_of_forall_mem_list
      intro a ha b hb
      have ha' := (List.mem_filter.mp ha).2
      have hb' := (List.mem_filter.mp hb).2
      simp only [hp, decide_eq_true_eq] at ha' hb'
      simp [sortLe, ha', hb']
    have hsub : List.Sublist (languages.filter p) (List.mergeSort languages sortLe) :=
      List.sublist_mergeSort sortLe_trans sortLe_total hpair (List.filter_sublist _)
    have hsub2 : List.Sublist (languages.filter p)
        ((List.mergeSort languages sortLe).filter p) := by
      have hstep := hsub.filter p
      have heq : (languages.filter p).filter p = languages.filter p :=
        List.filter_eq_self.mpr fun a ha => (List.mem_filter.mp ha).2
      rwa [heq] at hstep
    have hlen : ((List.mergeSort languages sortLe).filter p).length
        = (languages.filter p).length :=
      ((List.mergeSort_perm languages sortLe).filter p).length_eq
    have hfeq : languages.filter p = (List.mergeSort languages sortLe).filter p :=
      hsub2.eq_of_length hlen.symm
    rw [hrw, List.filter_map]
    have hpred : (List.mergeSort languages sortLe).filter
        ((fun g : GrowthLanguage => decide (g.commitCount = k)) ∘
          (fun l => { language := l.language, commitCount := l.commitCount,
                      growth := growthTier l.commitCount }))
        = (List.mergeSort languages sortLe).filter p :=
      List.filter_congr fun a _ => rfl
    rw [hpred, ← hfeq]
  · intro g hg
    rw [hrw] at hg
    obtain ⟨l, -, rfl⟩ := List.mem_map.mp hg
    rfl
  · unfold identifyGrowthLanguages identifyGrowthLanguagesPost
    rw [List.mergeSort]
    simp [List.splitInTwo_fst, List.splitInTwo_snd, List.mergeSort, List.merge,
      sortLe, tsEntry, pyEntry, jsEntry, growthTier]

/-- Witness for C7: the spec scenario's three languages with `topN = 3`
are returned in full, up to annotation, as a permutation. -/
theorem identifyGrowthLanguages_spec_witness :
    ((identifyGrowthLanguages [tsEntry, pyEntry, jsEntry] 3).map
        (fun g => (g.language, g.commitCount))).Perm
      ([tsEntry, pyEntry, jsEntry].map (fun l => (l.language, l.commitCount))) :=
  (identifyGrowthLanguages_spec [tsEntry, pyEntry, jsEntry] 3 (by decide)).1

/-! ### C4, C5, C10: consistency score and commit patterns -/

/-- Consistency score as a function of the commit count and the bucket
list alone; bridge for rewriting, definitionally equal to
`calculateConsistencyScore`. -/
noncomputable def consistencyAux (n : ℕ) (counts : List ℕ) : ℤ :=
  if n = 0 then 0
  else if counts.length = 0 then 0
  else
    let m : ℚ := mean counts
    let stdDev : ℝ := Real.sqrt ((variance counts : ℚ) : ℝ)
    let cv : ℝ := if m = 0 then 0 else stdDev / (m : ℝ)
    round (max 0 (min 100 (100 - cv * 50)) : ℝ)

theorem calculateConsistencyScore_eq_aux (commits : List Commit) :
    calculateConsistencyScore commits
      = consistencyAux commits.length (dailyCounts commits) := rfl

theorem dailyCounts_ne_nil {commits : List Commit} (h : commits ≠ []) :
    dailyCounts commits ≠ [] := by
  have h1 : commits.map dayKey ≠ [] := fun hh => h (by simpa using hh)
  have h2 := firstDedup_ne_nil h1
  intro hmap
  exact h2 (List.map_eq_nil_iff.mp hmap)

theorem dailyCounts_pos {commits : List Commit} :
    ∀ x ∈ dailyCounts commits, 1 ≤ x := by
  intro x hx
  unfold dailyCounts bucketCounts at hx
  obtain ⟨k, hk, rfl⟩ := List.mem_map.mp hx
  have hk' : k ∈ commits.map dayKey := mem_firstDedup.mp hk
  exact List.count_pos_iff.mpr hk'

/-- C4: `calculateConsistencyScore` returns 0 on the empty list; on a
non-empty list the result is an integer in `[0, 100]` equal to the
rounded clamp of `100 - cv * 50`, `cv` the coefficient of variation
(standard deviation over mean) of the per-UTC-day commit counts; and
when every commit falls on one UTC calendar day the result is 100. -/
theorem calculateConsistencyScore_spec :
    calculateConsistencyScore [] = 0
    ∧ (∀ commits : List Commit, commits ≠ [] →
        0 ≤ calculateConsistencyScore commits
        ∧ calculateConsistencyScore commits ≤ 100
        ∧ calculateConsistencyScore commits
            = round (max 0 (min 100 (100
                - Real.sqrt ((variance (dailyCounts commits) : ℚ) : ℝ)
                  / ((mean (dailyCounts commits) : ℚ) : ℝ) * 50)) : ℝ))
    ∧ (∀ commits : List Commit, commits ≠ [] →
        (∀ c1 ∈ commits, ∀ c2 ∈ commits, dayKey c1 = dayKey c2) →
        calculateConsistencyScore commits = 100) := by
  refine ⟨rfl, ?_, ?_⟩
  · intro cs h
    have hlen : cs.length ≠ 0 := fun h0 => h (List.length_eq_zero.mp h0)
    have hdc := dailyCounts_ne_nil h
    have hdlen : (dailyCounts cs).length ≠ 0 :=
      fun h0 => hdc (List.length_eq_zero.mp h0)
    have hm : 0 < mean (dailyCounts cs) := mean_pos hdc dailyCounts_pos
    have hval : calculateConsistencyScore cs
        = round (max 0 (min 100 (100
            - Real.sqrt ((variance (dailyCounts cs) : ℚ) : ℝ)
              / ((mean (dailyCounts cs) : ℚ) : ℝ) * 50)) : ℝ) := by
      rw [calculateConsistencyScore_eq_aux]
      simp only [consistencyAux, if_neg hlen, if_neg hdlen, if_neg (ne_of_gt hm)]
    refine ⟨?_, ?_, hval⟩
    · rw [hval]
      apply int_le_round
      push_cast
      exact le_max_left _ _
    · rw [hval]
      apply round_le_int
      push_cast
      exact max_le (by norm_num) (min_le_left _ _)
  · intro cs h hsame
    obtain ⟨c, cs', rfl⟩ : ∃ c cs', cs = c :: cs' := by
      cases cs with
      | nil => exact absurd rfl h
      | cons c cs' => exact ⟨c, cs', rfl⟩
    have hall : ∀ x ∈ (c :: cs').map dayKey, x = dayKey c := by
      intro x hx
      obtain ⟨c2, hc2, rfl⟩ := List.mem_map.mp hx
      exact hsame c2 hc2 c (List.mem_cons_self c cs')
    have hdedup : firstDedup ((c :: cs').map dayKey) = [dayKey c] :=
      firstDedup_of_forall_eq (by simp) hall
    have hcount : List.count (dayKey c) ((c :: cs').map dayKey)
        = ((c :: cs').map dayKey).length := by
      rw [List.count_eq_length]
      intro b hb
      exact (hall b hb).symm
    have hmean : ∀ n : ℕ, mean [n] = (n : ℚ) := fun n => by simp [mean]
    have hvar : ∀ n : ℕ, variance [n] = 0 := fun n => by
      simp [variance, hmean n]
    have hmne : ∀ n : ℕ, mean [n + 1] ≠ 0 := fun n => by
      rw [hmean]
      exact_mod_cast Nat.succ_ne_zero n
    have hdaily : dailyCounts (c :: cs') = [cs'.length + 1] := by
      unfold dailyCounts bucketCounts
      rw [hdedup, List.map_cons, List.map_nil, hcount, List.length_map,
        List.length_cons]
    rw [calculateConsistencyScore_eq_aux, hdaily]
    have hne1 : (c :: cs').length ≠ 0 := by simp
    have hne2 : ([cs'.length + 1] : List ℕ).length ≠ 0 := by simp
    simp only [consistencyAux, if_neg hne1, if_neg hne2, if_neg (hmne cs'.length),
      hvar (cs'.length + 1), Rat.cast_zero, Real.sqrt_zero, zero_div, zero_mul,
      sub_zero]
    rw [show ((0 : ℝ) ⊔ ((100 : ℝ) ⊓ 100)) = 100 by
      rw [min_self]; exact max_eq_right (by norm_num)]
    rw [show (100 : ℝ) = ((100 : ℤ) : ℝ) by norm_num, round_intCast]

/-- Witness for C4: a single commit occupies a single UTC day and
scores exactly 100. -/
theorem calculateConsistencyScore_spec_witness :
    calculateConsistencyScore [epochCommit] = 100 :=
  calculateConsistencyScore_spec.2.2 [epochCommit] (by simp) (by
    intro c1 h1 c2 h2
    simp only [List.mem_singleton] at h1 h2
    rw [h1, h2])

/-- C5: `burstyPattern` and `consistentPattern` are never both true
(the thresholds `0.5 > 0.3` make that impossible for a non-negative
mean), and the empty commit list yields the documented default record
with peak day Monday. -/
theorem analyzeCommitPatterns_spec :
    (∀ commits : List Commit,
        ((analyzeCommitPatterns commits).burstyPattern
          && (analyzeCommitPatterns commits).consistentPattern) = false)
    ∧ analyzeCommitPatterns []
        = { averageCommitsPerDay := 0, peakDay := "Monday",
            burstyPattern := false, consistentPattern := false } := by
  constructor
  · intro cs
    by_cases hc : cs.length = 0
    · simp [analyzeCommitPatterns, hc]
    · have hm : (0 : ℝ) ≤ ((mean (dowCounts cs) : ℚ) : ℝ) := by
        exact_mod_cast mean_nonneg (dowCounts cs)
      simp only [analyzeCommitPatterns, if_neg hc]
      by_cases h1 : Real.sqrt ((variance (dowCounts cs) : ℚ) : ℝ)
          > ((mean (dowCounts cs) : ℚ) : ℝ) * 0.5
      · have h2 : ¬(Real.sqrt ((variance (dowCounts cs) : ℚ) : ℝ)
            < ((mean (dowCounts cs) : ℚ) : ℝ) * 0.3) := by
          intro h2
          nlinarith
        simp [h1, h2]
      · simp [h1]
  · rfl

theorem mean_perm {l1 l2 : List ℕ} (h : l1.Perm l2) : mean l1 = mean l2 := by
  unfold mean
  rw [(h.map (fun n : ℕ => (n : ℚ))).sum_eq, h.length_eq]

theorem variance_perm {l1 l2 : List ℕ} (h : l1.Perm l2) :
    variance l1 = variance l2 := by
  unfold variance
  rw [mean_perm h, (h.map (fun n : ℕ => ((n : ℚ) - mean l2) ^ 2)).sum_eq,
    h.length_eq]

theorem dailyCounts_perm {cs1 cs2 : List Commit}
    (h : ∀ d : ℤ, countOn cs1 d = countOn cs2 d) :
    (dailyCounts cs1).Perm (dailyCounts cs2) := by
  have hkeys : (cs1.map dayKey).Perm (cs2.map dayKey) :=
    List.perm_iff_count.mpr h
  have hd1 := nodup_firstDedup (cs1.map dayKey)
  have hd2 := nodup_firstDedup (cs2.map dayKey)
  have hdperm : (firstDedup (cs1.map dayKey)).Perm (firstDedup (cs2.map dayKey)) :=
    (List.perm_ext_iff_of_nodup hd1 hd2).mpr fun a => by
      rw [mem_firstDedup, mem_firstDedup]
      exact hkeys.mem_iff
  unfold dailyCounts bucketCounts
  exact (hdperm.map _).trans
    (List.Perm.of_eq (List.map_congr_left fun a _ => h a))

/-- C10: the consistency score depends only on the per-UTC-day commit
count function: two commit lists with identical counts on every UTC
calendar day score identically, whatever their other fields, ordering
or times of day. -/
theorem calculateConsistencyScore_day_extensional (cs1 cs2 : List Commit)
    (h : ∀ d : ℤ, countOn cs1 d = countOn cs2 d) :
    calculateConsistencyScore cs1 = calculateConsistencyScore cs2 := by
  have hkeys : (cs1.map dayKey).Perm (cs2.map dayKey) :=
    List.perm_iff_count.mpr h
  have hlen : cs1.length = cs2.length := by
    have hl := hkeys.length_eq
    simpa using hl
  have hdc := dailyCounts_perm h
  rw [calculateConsistencyScore_eq_aux, calculateConsistencyScore_eq_aux, hlen]
  simp only [consistencyAux]
  rw [hdc.length_eq, mean_perm hdc, variance_perm hdc]

/-- Commit one hour after the epoch, with payload fields differing from
`epochCommit` in every component. -/
def hourCommit : Commit :=
  { repositoryId := 2, committedAt := 3600000, additions := 5, deletions := 7
    filesChanged := 3 }

/-- Witness for C10: the epoch commit and a same-day commit one hour
later with different payload fields score identically. -/
theorem calculateConsistencyScore_day_extensional_witness :
    calculateConsistencyScore [epochCommit]
      = calculateConsistencyScore [hourCommit] :=
  calculateConsistencyScore_day_extensional [epochCommit] [hourCommit] (fun d => by
    have h1 : dayKey epochCommit = 0 := by decide
    have h2 : dayKey hourCommit = 0 := by decide
    simp [countOn, h1, h2])

end Trajecta
